import Mathlib

/-!
Verification of the retrieval subsystem of a small RAG chatbot
(document chunking, an exact-scan vector store, a managed-store wrapper,
and the transcript loader), shallowly embedded from the Python sources
`vector_store.py`, `simple_vector_store.py`, `rag_chatbot.py` and
`transcript_loader.py`.

Strings are modelled as `List Char`; Python integers as `Int`; Python
slicing, negative indexing and `str.strip` are modelled explicitly.
The `while` loop of `VectorStore.chunk_text` is embedded with an explicit
fuel parameter so that non-termination of the source loop is observable
as the result `ChunkOut.noFuel` at every fuel value.
-/

namespace RagSpec

abbrev Str := List Char

/-- Python whitespace test restricted to the ASCII whitespace characters
that `str.strip()` removes (space, tab, newline, carriage return,
vertical tab, form feed). -/
def pyIsSpace (c : Char) : Bool :=
  c == ' ' || c == '\t' || c == '\n' || c == '\r' || c == '\x0b' || c == '\x0c'

/-- Model of Python `str.strip()`: drop whitespace from both ends. -/
def pyStrip (s : Str) : Str :=
  ((s.dropWhile pyIsSpace).reverse.dropWhile pyIsSpace).reverse

/-- Resolve one endpoint of a Python slice `s[a:b]` to a clamped
non-negative index, following CPython's slice semantics. -/
def pySliceIdx (len : Nat) (a : Int) : Nat :=
  if a < 0 then ((len : Int) + a).toNat else min a.toNat len

/-- Model of the Python slice `s[a:b]` (step 1), including negative
endpoints and clamping. -/
def pySlice (s : Str) (a b : Int) : Str :=
  (s.drop (pySliceIdx s.length a)).take (pySliceIdx s.length b - pySliceIdx s.length a)

/-- Model of Python indexing `s[j]`: negative indices count from the
end; an out-of-range access (Python `IndexError`) is `none`. -/
def pyCharAt (s : Str) (j : Int) : Option Char :=
  if 0 ≤ j then s.get? j.toNat
  else if 0 ≤ (s.length : Int) + j then s.get? ((s.length : Int) + j).toNat
  else none

/-- The sentence-terminating characters searched for by
`VectorStore.chunk_text` (`text[i-1] in '.!?'`). -/
def isPunctC (c : Char) : Bool :=
  c == '.' || c == '!' || c == '?'

/-- The backward scan `for i in range(end, search_start, -1)` of
`VectorStore.chunk_text`: starting at `i`, step down while `i > lo`,
returning the first (hence largest) `i` with `text[i-1]` a sentence
terminator.  The `Nat` argument is the exact number of loop steps,
`(i - lo).toNat`; a failed (out of range) read of `text[i-1]` is the
Python `IndexError`, modelled as `Except.error`. -/
def findDotAux (text : Str) (lo : Int) : Nat → Int → Except Unit (Option Int)
  | 0, _ => Except.ok none
  | Nat.succ n, i =>
    if i ≤ lo then Except.ok none
    else
      match pyCharAt text (i - 1) with
      | none => Except.error ()
      | some c => if isPunctC c then Except.ok (some i) else findDotAux text lo n (i - 1)

/-- One computation of the chunk end in `VectorStore.chunk_text`:
`end = start + chunk_size`, then, if `end < len(text)`, search backward
from `end` to `max(start, end - 100)` for a sentence boundary.
`none` is a Python `IndexError` raised inside the scan. -/
def computeEnd (text : Str) (cs start : Int) : Option Int :=
  let end0 := start + cs
  if end0 < (text.length : Int) then
    let ss := max start (end0 - 100)
    match findDotAux text ss ((end0 - ss).toNat) end0 with
    | Except.error _ => none
    | Except.ok (some i) => some i
    | Except.ok none => some end0
  else some end0

/-- Possible outcomes of running the `while` loop of
`VectorStore.chunk_text` with a given amount of fuel. -/
inductive ChunkOut where
  | out (chunks : List Str)
  | idxErr
  | noFuel
deriving DecidableEq, Repr

/-- The `while start < len(text)` loop of `VectorStore.chunk_text`,
fuelled.  Each iteration computes `end`, appends the stripped slice
`text[start:end]` when non-empty, sets `start = end - overlap` and
breaks when the new `start` reaches the end of the text. -/
def chunkLoop (text : Str) (cs ov : Int) : Nat → Int → List Str → ChunkOut
  | 0, _, _ => ChunkOut.noFuel
  | Nat.succ fuel, start, acc =>
    if start < (text.length : Int) then
      match computeEnd text cs start with
      | none => ChunkOut.idxErr
      | some e =>
        let chunk := pyStrip (pySlice text start e)
        let acc' := if chunk = [] then acc else acc ++ [chunk]
        let start' := e - ov
        if (text.length : Int) ≤ start' then ChunkOut.out acc'
        else chunkLoop text cs ov fuel start' acc'
    else ChunkOut.out acc

/-- `VectorStore.chunk_text(text, chunk_size, overlap)`, fuelled. -/
def chunkTextF (fuel : Nat) (text : Str) (cs ov : Int) : ChunkOut :=
  chunkLoop text cs ov fuel 0 []

/-- A 30-character input on which `chunk_text` with `chunk_size = 20`,
`overlap = 5` loops forever: the sentence-boundary shrink sets
`end = 2`, so `start` becomes `2 - 5 = -3` and never advances again. -/
def divergeText : Str := "a.bbbbbbbbbbbbbbbbbbbbbbbbbbbb".toList

/-- The end-to-end example document of the specification. -/
def mammalText : Str := "Cats are mammals. Dogs are mammals too.".toList

theorem divergeText_length : divergeText.length = 30 := by decide

lemma chunkLoop_divergeText_fix (n : Nat) (acc : List Str) :
    chunkLoop divergeText 20 5 (n + 1) (-3) acc = chunkLoop divergeText 20 5 n (-3) acc := rfl

lemma chunkLoop_divergeText_noFuel (n : Nat) (acc : List Str) :
    chunkLoop divergeText 20 5 n (-3) acc = ChunkOut.noFuel := by
  induction n with
  | zero => rfl
  | succ n ih => rw [chunkLoop_divergeText_fix]; exact ih

/-- On `divergeText`, the `chunk_text` loop never returns, at any fuel. -/
lemma chunkTextF_divergeText (fuel : Nat) :
    chunkTextF fuel divergeText 20 5 = ChunkOut.noFuel := by
  cases fuel with
  | zero => rfl
  | succ n =>
    show chunkLoop divergeText 20 5 n (-3) [['a', '.']] = ChunkOut.noFuel
    exact chunkLoop_divergeText_noFuel n _

lemma chunkLoop_mammalText_fix (n : Nat) (acc : List Str) :
    chunkLoop mammalText 20 5 (n + 1) 12 acc =
      chunkLoop mammalText 20 5 n 12 (acc ++ [['m', 'a', 'l', 's', '.']]) := rfl

lemma chunkLoop_mammalText_noFuel (n : Nat) : ∀ acc : List Str,
    chunkLoop mammalText 20 5 n 12 acc = ChunkOut.noFuel := by
  induction n with
  | zero => intro acc; rfl
  | succ n ih => intro acc; rw [chunkLoop_mammalText_fix]; exact ih _

/-- On the specification's own end-to-end example document, the
`chunk_text` loop never returns, at any fuel: from `start = 12` the
backward scan always finds the period at index 16, so `end = 17` and
`start = 17 - 5 = 12` again, appending the chunk `"mals."` forever. -/
lemma chunkTextF_mammalText (fuel : Nat) :
    chunkTextF fuel mammalText 20 5 = ChunkOut.noFuel := by
  cases fuel with
  | zero => rfl
  | succ n =>
    show chunkLoop mammalText 20 5 n 12 ["Cats are mammals.".toList] = ChunkOut.noFuel
    exact chunkLoop_mammalText_noFuel n _

/-- C1: the claim states that `chunk(text, maxSize, overlap)` terminates
for every text and every pair of positive integers with
`overlap < maxSize`.  The code does not: on the 30-character input
`divergeText` with `maxSize = 20`, `overlap = 5` (valid parameters),
the loop reaches `start = -3` and repeats that state forever, so the
fuelled embedding returns `noFuel` at every fuel value. -/
theorem C1_chunk_not_terminating (fuel : Nat) :
    chunkTextF fuel divergeText 20 5 = ChunkOut.noFuel :=
  chunkTextF_divergeText fuel

/-- C3: the claim states that chunking the document
`"Cats are mammals. Dogs are mammals too."` with `maxSize = 20`,
`overlap = 5` yields exactly two chunks.  The code instead loops
forever on exactly this input (state `start = 12` repeats, appending
`"mals."` each iteration), so no chunks are ever returned and the
subsequent indexing and search of the end-to-end scenario are never
reached. -/
theorem C3_end_to_end_example_diverges (fuel : Nat) :
    chunkTextF fuel mammalText 20 5 = ChunkOut.noFuel :=
  chunkTextF_mammalText fuel

/-- C2 counterexample: the claim, read on the code, is that whenever
`len(t) ≤ maxSize` (with valid parameters) every terminating run of
`chunk` returns `[t.trim()]` (or `[]` for all-whitespace `t`).  It is
false at `t = "abcdefghij"`, `maxSize = 10`, `overlap = 5`: the run
terminates with TWO chunks `["abcdefghij", "fghij"]`, because after
the first window `start` becomes `maxSize - overlap = 5 < len(t)` and a
second overlapping window is emitted. -/
theorem C2_counterexample :
    ¬ (∀ (t : Str) (cs ov : Int) (fuel : Nat) (res : List Str),
        0 < ov → ov < cs → (t.length : Int) ≤ cs →
        chunkTextF fuel t cs ov = ChunkOut.out res →
        res = if pyStrip t = [] then [] else [pyStrip t]) := by
  intro h
  have h2 := h "abcdefghij".toList 10 5 10
    ["abcdefghij".toList, "fghij".toList]
    (by decide) (by decide) (by decide) (by decide)
  revert h2
  decide

/-- C2 amended: if `len(t) ≤ maxSize - overlap` (so that the single
window already exhausts the advance), `chunk(t, maxSize, overlap)`
terminates and returns exactly `[t.trim()]`, or `[]` when `t` is
whitespace-only. -/
theorem C2_short_text_single_chunk (t : Str) (cs ov : Int) (fuel : Nat)
    (hov : 0 < ov) (hcs : ov < cs) (hlen : (t.length : Int) ≤ cs - ov)
    (hf : 1 ≤ fuel) :
    chunkTextF fuel t cs ov =
      ChunkOut.out (if pyStrip t = [] then [] else [pyStrip t]) := by
  obtain ⟨n, rfl⟩ : ∃ n, fuel = n + 1 := ⟨fuel - 1, by omega⟩
  by_cases h0 : (0 : Int) < (t.length : Int)
  · have hcompute : computeEnd t cs 0 = some cs := by
      have hnot : ¬ (cs < (t.length : Int)) := by omega
      simp [computeEnd, hnot]
    have hslice : pySlice t 0 cs = t := by
      have ha : pySliceIdx t.length 0 = 0 := by simp [pySliceIdx]
      have hb : pySliceIdx t.length cs = t.length := by
        have hcs0 : ¬ (cs < 0) := by omega
        have : t.length ≤ cs.toNat := by omega
        simp [pySliceIdx, hcs0, Nat.min_eq_right this]
      simp [pySlice, ha, hb]
    have hstop : (t.length : Int) ≤ cs - ov := hlen
    show chunkLoop t cs ov (n + 1) 0 [] = _
    rw [chunkLoop]
    rw [if_pos h0, hcompute]
    simp only []
    rw [hslice, if_pos hstop]
    by_cases hstrip : pyStrip t = []
    · simp [hstrip]
    · simp [hstrip]
  · have ht : t = [] := by
      have : t.length = 0 := by omega
      exact List.length_eq_zero.mp this
    subst ht
    show chunkLoop [] cs ov (n + 1) 0 [] = _
    rw [chunkLoop, if_neg h0]
    simp [pyStrip]

/-- There is a sentence-terminating character at (Python) index `j`. -/
def isPunctAt (text : Str) (j : Int) : Prop :=
  ∃ c, pyCharAt text j = some c ∧ isPunctC c = true

/-- Soundness of the backward scan: a successful result `some r` points
just after a sentence terminator, lies in the scanned range, and is the
largest such position (all higher scanned positions were read
successfully and are not terminators). -/
lemma findDotAux_ok_some (text : Str) (lo : Int) :
    ∀ (n : Nat) (i r : Int), findDotAux text lo n i = Except.ok (some r) →
      lo < r ∧ r ≤ i ∧ isPunctAt text (r - 1) ∧
      ∀ i', r < i' → i' ≤ i →
        ∃ c, pyCharAt text (i' - 1) = some c ∧ isPunctC c = false := by
  intro n
  induction n with
  | zero => intro i r h; exact absurd h (by simp [findDotAux])
  | succ n ih =>
    intro i r h
    rw [findDotAux] at h
    by_cases hi : i ≤ lo
    · rw [if_pos hi] at h; exact absurd h (by simp)
    · rw [if_neg hi] at h
      cases hc : pyCharAt text (i - 1) with
      | none => rw [hc] at h; exact absurd h (by simp)
      | some c =>
        rw [hc] at h
        by_cases hp : isPunctC c = true
        · simp only [hp, if_true] at h
          have hr : r = i := by
            have := h
            injection this with h2
            injection h2 with h3
            omega
          subst hr
          exact ⟨by omega, le_refl r, ⟨c, hc, hp⟩, fun i' h1 h2 => by omega⟩
        · simp only [hp, if_false] at h
          obtain ⟨ha, hb, hcp, hmax⟩ := ih (i - 1) r h
          refine ⟨ha, by omega, hcp, fun i' h1 h2 => ?_⟩
          by_cases hieq : i' = i
          · subst hieq
            exact ⟨c, hc, by simpa using hp⟩
          · exact hmax i' h1 (by omega)

/-- Completeness of the backward scan: with enough steps, if some
scanned position holds a sentence terminator, the scan does not return
`none`. -/
lemma findDotAux_not_none (text : Str) (lo : Int) :
    ∀ (n : Nat) (i j : Int), lo ≤ j → j ≤ i - 1 → (i - lo).toNat ≤ n →
      isPunctAt text j → findDotAux text lo n i ≠ Except.ok none := by
  intro n
  induction n with
  | zero => intro i j h1 h2 h3 _ _; omega
  | succ n ih =>
    intro i j h1 h2 h3 hp h
    rw [findDotAux] at h
    by_cases hi : i ≤ lo
    · omega
    · rw [if_neg hi] at h
      cases hc : pyCharAt text (i - 1) with
      | none => rw [hc] at h; exact absurd h (by simp)
      | some c =>
        rw [hc] at h
        by_cases hpc : isPunctC c = true
        · simp only [hpc, if_true] at h
          exact absurd h (by simp)
        · simp only [hpc, if_false] at h
          by_cases hj : j = i - 1
          · subst hj
            obtain ⟨c', hc', hp'⟩ := hp
            rw [hc] at hc'
            injection hc' with he
            subst he
            exact hpc hp'
          · exact ih (i - 1) j h1 (by omega) (by omega) hp h

lemma mem_dropWhile_of_mem {p : Char → Bool} {c : Char} (hc : p c = false) :
    ∀ {l : Str}, c ∈ l → c ∈ l.dropWhile p := by
  intro l
  induction l with
  | nil => intro h; exact absurd h (List.not_mem_nil c)
  | cons a t ih =>
    intro h
    by_cases ha : p a = true
    · rw [List.dropWhile_cons_of_pos ha]
      rcases List.mem_cons.mp h with he | ht
      · subst he; rw [hc] at ha; exact absurd ha (by simp)
      · exact ih ht
    · rw [List.dropWhile_cons_of_neg ha]
      exact h

/-- Stripping removes only whitespace: any non-whitespace character of
a string survives `pyStrip`. -/
lemma mem_pyStrip {c : Char} {l : Str} (h : c ∈ l) (hc : pyIsSpace c = false) :
    c ∈ pyStrip l := by
  unfold pyStrip
  rw [List.mem_reverse]
  exact mem_dropWhile_of_mem hc (by rw [List.mem_reverse]; exact mem_dropWhile_of_mem hc h)

lemma getD_mem_take_drop {α : Type} (d : α) (l : List α) (a b j : Nat)
    (h1 : a ≤ j) (h2 : j < b) (h3 : j < l.length) :
    l.getD j d ∈ (l.drop a).take (b - a) := by
  have hj : j - a < b - a := by omega
  have hq : ((l.drop a).take (b - a)).get? (j - a) = l.get? j := by
    rw [List.get?_take hj, List.get?_drop]
    congr 1
    omega
  cases hx : l.get? j with
  | none =>
    rw [List.get?_eq_none] at hx
    omega
  | some x =>
    have hmem : x ∈ (l.drop a).take (b - a) := List.get?_mem (by rw [hq, hx])
    have hgd : l.getD j d = x := by rw [List.getD_eq_get?, hx]; rfl
    rw [hgd]; exact hmem

/-- Every character position inside the window `[s, e)` (with `s ≥ 0`)
is kept by the Python slice `text[s:e]`. -/
lemma getD_mem_pySlice (t : Str) (s e : Int) (j : Nat) (d : Char)
    (hs : 0 ≤ s) (hsj : s ≤ (j : Int)) (hje : (j : Int) < e) (hjl : j < t.length) :
    t.getD j d ∈ pySlice t s e := by
  unfold pySlice pySliceIdx
  have hs0 : ¬ (s < 0) := by omega
  have he0 : ¬ (e < 0) := by omega
  rw [if_neg hs0, if_neg he0]
  apply getD_mem_take_drop
  · exact le_trans (min_le_left _ _) (by omega)
  · exact lt_min (by omega) hjl
  · exact hjl

/-- Invariant of the `chunk_text` loop once `start` has gone negative:
a sentence terminator stays inside the backward-scan window, every
terminator at a non-negative position up to `T` sits at an index
`≤ overlap - 2`, and the parameters satisfy the side conditions under
which this situation can arise.  From such a state the loop can never
produce a result. -/
def Trapped (text : Str) (cs ov T s : Int) : Prop :=
  s < 0 ∧ 0 < ov ∧ ov < cs ∧ cs ≤ ov + 99 ∧ cs < (text.length : Int) ∧
  cs - 2 ≤ T ∧ s + cs - 1 ≤ T ∧
  (∃ j, max s (s + cs - 100) ≤ j ∧ j ≤ s + cs - 1 ∧ isPunctAt text j) ∧
  (∀ j : Int, 0 ≤ j → j ≤ T → isPunctAt text j → j ≤ ov - 2)

/-- From a trapped state the `chunk_text` loop never returns a chunk
list: every iteration either raises an index error or re-enters a
trapped state, so the only outcomes are `idxErr` and `noFuel`. -/
lemma trapped_no_out (text : Str) (cs ov T : Int) :
    ∀ (fuel : Nat) (s : Int) (acc res : List Str),
      Trapped text cs ov T s →
      chunkLoop text cs ov fuel s acc ≠ ChunkOut.out res := by
  intro fuel
  induction fuel with
  | zero => intro s acc res _ h; exact absurd h (by simp [chunkLoop])
  | succ n ih =>
    intro s acc res htrap h
    obtain ⟨hs, hov, hovcs, hcs99, hcslen, hT1, hT2, ⟨j0, hj0a, hj0b, hj0p⟩, hnop⟩ := htrap
    have hguard : s < (text.length : Int) := by omega
    rw [chunkLoop, if_pos hguard] at h
    have hend0 : s + cs < (text.length : Int) := by omega
    cases hce : computeEnd text cs s with
    | none => rw [hce] at h; exact absurd h (by simp)
    | some e =>
      simp only [hce] at h
      have hee : e ≤ ov - 1 ∧ Trapped text cs ov T (e - ov) := by
        rw [computeEnd] at hce
        simp only [if_pos hend0] at hce
        cases hfd : findDotAux text (max s (s + cs - 100))
            ((s + cs - max s (s + cs - 100)).toNat) (s + cs) with
        | error u => rw [hfd] at hce; exact absurd hce (by simp)
        | ok o =>
          cases o with
          | none =>
            exact absurd hfd
              (findDotAux_not_none text (max s (s + cs - 100)) _ (s + cs) j0 hj0a
                (by omega) (le_refl _) hj0p)
          | some i =>
            rw [hfd] at hce
            have hie : i = e := by injection hce
            subst hie
            obtain ⟨hlo, hhi, hip, _⟩ :=
              findDotAux_ok_some text (max s (s + cs - 100)) _ (s + cs) i hfd
            have hi1 : i ≤ ov - 1 := by
              by_cases hneg : i - 1 < 0
              · omega
              · have := hnop (i - 1) (by omega) (by omega) hip
                omega
            refine ⟨hi1, by omega, hov, hovcs, hcs99, hcslen, hT1, by omega,
              ⟨i - 1, ?_, by omega, hip⟩, hnop⟩
            exact max_le (by omega) (by omega)
      obtain ⟨he1, htrap'⟩ := hee
      have hnostop : ¬ ((text.length : Int) ≤ e - ov) := by omega
      rw [if_neg hnostop] at h
      exact ih (e - ov) _ res htrap' h

/-- If an iteration of the loop starts at a non-negative `start` and
its sentence-boundary shrink sends the next `start` below zero, the
loop enters a trapped state. -/
lemma trapped_entry (text : Str) (cs ov s i : Int)
    (hov : 0 < ov) (hcs : ov < cs) (hs : 0 ≤ s)
    (hlt : s + cs < (text.length : Int))
    (hfd : findDotAux text (max s (s + cs - 100))
      ((s + cs - max s (s + cs - 100)).toNat) (s + cs) = Except.ok (some i))
    (hneg : i - ov < 0) :
    Trapped text cs ov (s + cs - 1) (i - ov) := by
  obtain ⟨hlo, hhi, hip, hmax⟩ :=
    findDotAux_ok_some text (max s (s + cs - 100)) _ (s + cs) i hfd
  have hlo' : s + cs - 100 < i := lt_of_le_of_lt (le_max_right s (s + cs - 100)) hlo
  have hcs99 : cs ≤ ov + 99 := by omega
  refine ⟨hneg, hov, hcs, hcs99, by omega, by omega, by omega,
    ⟨i - 1, max_le (by omega) (by omega), by omega, hip⟩, ?_⟩
  intro j hj0 hjT hp
  by_contra hcon
  have hji : i ≤ j := by omega
  obtain ⟨c, hc, hcf⟩ := hmax (j + 1) (by omega) (by omega)
  have : j + 1 - 1 = j := by omega
  rw [this] at hc
  obtain ⟨c', hc', hp'⟩ := hp
  rw [hc] at hc'
  injection hc' with he
  subst he
  rw [hp'] at hcf
  exact Bool.noConfusion hcf

/-- Main coverage invariant of the `chunk_text` loop: a terminating run
starting from a non-negative `start` extends the accumulator, and every
non-whitespace character at a position from `start` onwards appears in
some returned chunk. -/
lemma chunkLoop_covers (text : Str) (cs ov : Int) (hov : 0 < ov) (hcs : ov < cs) :
    ∀ (fuel : Nat) (s : Int) (acc res : List Str),
      0 ≤ s →
      chunkLoop text cs ov fuel s acc = ChunkOut.out res →
      (∃ tl, res = acc ++ tl) ∧
      ∀ j : Nat, s ≤ (j : Int) → j < text.length →
        pyIsSpace (text.getD j ' ') = false →
        ∃ ch, ch ∈ res ∧ text.getD j ' ' ∈ ch := by
  intro fuel
  induction fuel with
  | zero => intro s acc res _ h; exact absurd h (by simp [chunkLoop])
  | succ n ih =>
    intro s acc res hs h
    rw [chunkLoop] at h
    by_cases hguard : s < (text.length : Int)
    · rw [if_pos hguard] at h
      cases hce : computeEnd text cs s with
      | none => rw [hce] at h; exact absurd h (by simp)
      | some e =>
        simp only [hce] at h
        by_cases hstop : (text.length : Int) ≤ e - ov
        · rw [if_pos hstop] at h
          have hacc : (if pyStrip (pySlice text s e) = [] then acc
              else acc ++ [pyStrip (pySlice text s e)]) = res := by
            injection h
          constructor
          · rcases eq_or_ne (pyStrip (pySlice text s e)) [] with hnil | hnil
            · exact ⟨[], by rw [← hacc, if_pos hnil, List.append_nil]⟩
            · exact ⟨[pyStrip (pySlice text s e)], by rw [← hacc, if_neg hnil]⟩
          · intro j hsj hjl hw
            have hje : (j : Int) < e := by omega
            have hmem : text.getD j ' ' ∈ pyStrip (pySlice text s e) :=
              mem_pyStrip (getD_mem_pySlice text s e j ' ' hs hsj hje hjl) hw
            have hnil : pyStrip (pySlice text s e) ≠ [] :=
              List.ne_nil_of_mem hmem
            refine ⟨pyStrip (pySlice text s e), ?_, hmem⟩
            rw [← hacc, if_neg hnil]
            exact List.mem_append_right _ (List.mem_singleton_self _)
        · rw [if_neg hstop] at h
          by_cases hsneg : e - ov < 0
          · exfalso
            rw [computeEnd] at hce
            by_cases hlt : s + cs < (text.length : Int)
            · simp only [if_pos hlt] at hce
              cases hfd : findDotAux text (max s (s + cs - 100))
                  ((s + cs - max s (s + cs - 100)).toNat) (s + cs) with
              | error u =>
                rw [hfd] at hce; exact absurd hce (by simp)
              | ok o =>
                cases o with
                | none =>
                  rw [hfd] at hce
                  have : s + cs = e := by injection hce
                  omega
                | some i =>
                  rw [hfd] at hce
                  have hie : i = e := by injection hce
                  subst hie
                  exact trapped_no_out text cs ov (s + cs - 1) n (i - ov) _ res
                    (trapped_entry text cs ov s i hov hcs hs hlt hfd hsneg) h
            · simp only [if_neg hlt] at hce
              have : s + cs = e := by injection hce
              omega
          · obtain ⟨⟨tl, htl⟩, hcov⟩ := ih (e - ov) _ res (by omega) h
            constructor
            · rcases eq_or_ne (pyStrip (pySlice text s e)) [] with hnil | hnil
              · rw [if_pos hnil] at htl
                exact ⟨tl, htl⟩
              · rw [if_neg hnil] at htl
                exact ⟨[pyStrip (pySlice text s e)] ++ tl, by rw [htl, List.append_assoc]⟩
            · intro j hsj hjl hw
              by_cases hje : (j : Int) < e
              · have hmem : text.getD j ' ' ∈ pyStrip (pySlice text s e) :=
                  mem_pyStrip (getD_mem_pySlice text s e j ' ' hs hsj hje hjl) hw
                have hnil : pyStrip (pySlice text s e) ≠ [] :=
                  List.ne_nil_of_mem hmem
                rw [if_neg hnil] at htl
                refine ⟨pyStrip (pySlice text s e), ?_, hmem⟩
                rw [htl]
                exact List.mem_append_left _ (List.mem_append_right _ (List.mem_singleton_self _))
              · exact hcov j (by omega) hjl hw
    · rw [if_neg hguard] at h
      have hacc : acc = res := by injection h
      subst hacc
      exact ⟨⟨[], (List.append_nil acc).symm⟩, fun j hsj hjl _ => by omega⟩

/-- C4 counterexample: the claim quantifies over every input text and
every valid `(maxSize, overlap)`, asserting each non-whitespace
character appears in at least one chunk emitted by `chunk`.  On
`divergeText` with `(20, 5)` the loop never returns at any fuel, so no
chunk containing the character `'b'` is ever emitted. -/
theorem C4_counterexample :
    ¬ (∀ (t : Str) (cs ov : Int), 0 < ov → ov < cs →
        ∀ c ∈ t, pyIsSpace c = false →
        ∃ (fuel : Nat) (res : List Str) (ch : Str),
          chunkTextF fuel t cs ov = ChunkOut.out res ∧ ch ∈ res ∧ c ∈ ch) := by
  intro h
  obtain ⟨fuel, res, ch, hrun, -, -⟩ :=
    h divergeText 20 5 (by decide) (by decide) 'b' (by decide) (by decide)
  rw [chunkTextF_divergeText] at hrun
  exact ChunkOut.noConfusion hrun

/-- C4 amended: whenever `chunk(text, maxSize, overlap)` terminates
with a chunk list (valid parameters), every non-whitespace character of
the input appears in at least one emitted chunk — no silent data loss
at chunk boundaries. -/
theorem C4_no_char_loss (t : Str) (cs ov : Int) (fuel : Nat) (res : List Str)
    (hov : 0 < ov) (hcs : ov < cs)
    (hrun : chunkTextF fuel t cs ov = ChunkOut.out res) :
    ∀ c ∈ t, pyIsSpace c = false → ∃ ch, ch ∈ res ∧ c ∈ ch := by
  intro c hc hw
  obtain ⟨⟨j, hj⟩, hget⟩ := List.mem_iff_get.mp hc
  have hgd : t.getD j ' ' = c := by
    rw [List.getD_eq_get t ' ' hj, hget]
  obtain ⟨-, hcov⟩ :=
    chunkLoop_covers t cs ov hov hcs fuel 0 [] res le_rfl hrun
  obtain ⟨ch, hch, hmem⟩ := hcov j (by omega) hj (by rw [hgd]; exact hw)
  exact ⟨ch, hch, by rw [← hgd]; exact hmem⟩

/-- Witness for C4's amended theorem: `t = "ab"`, `maxSize = 10`,
`overlap = 5`, fuel 1 terminates with `[['a','b']]`. -/
theorem C4_no_char_loss_witness :
    (0 < (5 : Int) ∧ (5 : Int) < 10 ∧
      chunkTextF 1 "ab".toList 10 5 = ChunkOut.out ["ab".toList]) ∧
    (∀ c ∈ ("ab".toList : Str), pyIsSpace c = false →
      ∃ ch, ch ∈ (["ab".toList] : List Str) ∧ c ∈ ch) :=
  ⟨⟨by decide, by decide, by decide⟩,
    C4_no_char_loss "ab".toList 10 5 1 ["ab".toList] (by decide) (by decide) (by decide)⟩

/-- Witness for C2's amended theorem at `t = "hi"`, `maxSize = 10`,
`overlap = 5`, fuel 1. -/
theorem C2_short_text_single_chunk_witness :
    (0 < (5 : Int) ∧ (5 : Int) < 10 ∧ (("hi".toList : Str).length : Int) ≤ 10 - 5 ∧ 1 ≤ 1) ∧
    chunkTextF 1 "hi".toList 10 5 =
      ChunkOut.out (if pyStrip "hi".toList = [] then [] else [pyStrip "hi".toList]) :=
  ⟨⟨by decide, by decide, by decide, le_refl 1⟩,
    C2_short_text_single_chunk "hi".toList 10 5 1 (by decide) (by decide) (by decide) (le_refl 1)⟩

/-! ## SimpleVectorStore (`simple_vector_store.py`): the exact-scan strategy -/

/-- A metadata value: a Python string or integer. -/
inductive MVal where
  | str (s : Str)
  | int (z : Int)
deriving DecidableEq, Repr

/-- A metadata dictionary, modelled as an association list whose first
binding of a key is authoritative (Python dict literals have unique
keys). -/
abbrev MDict := List (String × MVal)

/-- Python `dict.get(k)`: the value bound to `k`, or `none`. -/
def findVal (k : String) (md : MDict) : Option MVal :=
  (md.find? (fun p => p.1 == k)).map (fun p => p.2)

/-- The in-memory state of `SimpleVectorStore`: the parallel lists
`self.embeddings` and `self.metadata`. -/
structure SVS where
  embeddings : List (List ℚ)
  metadata : List MDict
deriving DecidableEq

def SVS.empty : SVS := ⟨[], []⟩

/-- `SimpleVectorStore.add_texts(texts, metadatas)`: on a non-empty
batch, embed every text and extend both parallel lists; a `None` or
empty (falsy) `metadatas` is replaced by the default dicts
`{"index": i}`.  The embedding model is a parameter `mdl`.  No check
of any kind is made on the dimensionality of new or existing vectors. -/
def addTexts (mdl : Str → List ℚ) (st : SVS) (texts : List Str)
    (metadatas : List MDict) : SVS :=
  if texts = [] then st
  else
    { embeddings := st.embeddings ++ texts.map mdl,
      metadata := st.metadata ++
        (if metadatas = [] then
          (List.range texts.length).map (fun i => [("index", MVal.int i)])
         else metadatas) }

/-- Dot product of two rational vectors (numpy truncates nothing here;
the model is only applied to equal-length vectors in the claims). -/
def dotQ (q v : List ℚ) : ℚ := ((q.zip v).map (fun p => p.1 * p.2)).sum

/-- Squared Euclidean norm. -/
def normSq (v : List ℚ) : ℚ := dotQ v v

/-- Executable, order-faithful stand-in for the cosine similarity
computed by `sklearn.metrics.pairwise.cosine_similarity`: the signed
square `sign(d)·d²/(‖q‖²‖v‖²)` of the cosine similarity, with sklearn's
convention that a zero-norm vector has similarity `0`.  `x ↦ sign(x)·x²`
is strictly monotone, so this value induces exactly the cosine
similarity order (proved in `realCosSim_le_iff`). -/
def simScore (q v : List ℚ) : ℚ :=
  if normSq q = 0 ∨ normSq v = 0 then 0
  else (if dotQ q v < 0 then -(dotQ q v * dotQ q v) else dotQ q v * dotQ q v) /
    (normSq q * normSq v)

/-- The actual cosine similarity `d / (‖q‖‖v‖)` over the reals, with
sklearn's zero-norm convention. -/
noncomputable def realCosSim (q v : List ℚ) : ℝ :=
  if normSq q = 0 ∨ normSq v = 0 then 0
  else ((dotQ q v : ℚ) : ℝ) /
    (Real.sqrt ((normSq q : ℚ) : ℝ) * Real.sqrt ((normSq v : ℚ) : ℝ))

/-- One result row of `SimpleVectorStore.search`: the `content` read
from the stored metadata, the metadata without its `content` key, and
the ranking score. -/
structure SResult where
  content : MVal
  metadata : MDict
  similarity : ℚ
deriving DecidableEq

def mkSResult (md : MDict) (sim : ℚ) : SResult :=
  { content := (findVal "content" md).getD (MVal.str []),
    metadata := md.filter (fun p => !(p.1 == "content")),
    similarity := sim }

/-- `np.argsort(similarities)[::-1]`: the indices of the score list in
non-increasing score order (numpy's tie order is unspecified; this
model uses a sorted permutation with the same contract). -/
def argsortDesc (sims : List ℚ) : List Nat :=
  List.insertionSort (fun i j => sims.getD j 0 ≤ sims.getD i 0) (List.range sims.length)

/-- Combine optional values, failing if any is `none` (a Python
`IndexError` on `self.metadata[idx]`). -/
def optList {α : Type} : List (Option α) → Option (List α)
  | [] => some []
  | none :: _ => none
  | some a :: t =>
    match optList t with
    | some l => some (a :: l)
    | none => none

/-- `SimpleVectorStore.search(query, n_results)`: return `[]` on an
empty index, otherwise score every stored vector against the embedded
query, take the `n_results` best indices in non-increasing score order,
and build a result row from each stored metadata dict. -/
def searchSVS (mdl : Str → List ℚ) (st : SVS) (query : Str) (k : Nat) :
    Option (List SResult) :=
  if st.embeddings = [] then some []
  else
    let sims := st.embeddings.map (fun e => simScore (mdl query) e)
    let idxs := (argsortDesc sims).take k
    optList (idxs.map (fun i =>
      (st.metadata.get? i).map (fun md => mkSResult md (sims.getD i 0))))

/-- The strictly monotone signed square `x ↦ sign(x)·x²`. -/
noncomputable def signedSq (x : ℝ) : ℝ := if x < 0 then -(x * x) else x * x

lemma signedSq_strictMono : StrictMono signedSq := by
  intro x y hxy
  unfold signedSq
  by_cases hx : x < 0
  · by_cases hy : y < 0
    · rw [if_pos hx, if_pos hy]; nlinarith
    · rw [if_pos hx, if_neg hy]; nlinarith
  · have hy : ¬ y < 0 := by push_neg at hx ⊢; linarith
    rw [if_neg hx, if_neg hy]; nlinarith

lemma normSq_nonneg (v : List ℚ) : 0 ≤ normSq v := by
  unfold normSq dotQ
  induction v with
  | nil => simp
  | cons a t ih =>
    simp only [List.zip_cons_cons, List.map_cons, List.sum_cons]
    nlinarith [mul_self_nonneg a]

/-- The executable score is the signed square of the real cosine
similarity. -/
lemma simScore_cast (q v : List ℚ) :
    ((simScore q v : ℚ) : ℝ) = signedSq (realCosSim q v) := by
  unfold simScore realCosSim signedSq
  by_cases h : normSq q = 0 ∨ normSq v = 0
  · rw [if_pos h, if_pos h]
    norm_num
  · rw [if_neg h, if_neg h]
    push_neg at h
    obtain ⟨hq, hv⟩ := h
    have hq' : (0 : ℝ) < ((normSq q : ℚ) : ℝ) := by
      exact_mod_cast lt_of_le_of_ne (normSq_nonneg q) (Ne.symm hq)
    have hv' : (0 : ℝ) < ((normSq v : ℚ) : ℝ) := by
      exact_mod_cast lt_of_le_of_ne (normSq_nonneg v) (Ne.symm hv)
    have hsq : (0 : ℝ) < Real.sqrt ((normSq q : ℚ) : ℝ) * Real.sqrt ((normSq v : ℚ) : ℝ) :=
      mul_pos (Real.sqrt_pos.mpr hq') (Real.sqrt_pos.mpr hv')
    have hsqsq : (Real.sqrt ((normSq q : ℚ) : ℝ) * Real.sqrt ((normSq v : ℚ) : ℝ)) *
        (Real.sqrt ((normSq q : ℚ) : ℝ) * Real.sqrt ((normSq v : ℚ) : ℝ)) =
        ((normSq q : ℚ) : ℝ) * ((normSq v : ℚ) : ℝ) := by
      rw [mul_mul_mul_comm, Real.mul_self_sqrt hq'.le, Real.mul_self_sqrt hv'.le]
    have hcond : ((dotQ q v : ℚ) : ℝ) /
        (Real.sqrt ((normSq q : ℚ) : ℝ) * Real.sqrt ((normSq v : ℚ) : ℝ)) < 0 ↔
        dotQ q v < 0 := by
      rw [div_lt_iff hsq, zero_mul]
      constructor
      · intro hlt; exact_mod_cast hlt
      · intro hlt; exact_mod_cast hlt
    have hgen : (((dotQ q v : ℚ) : ℝ) /
          (Real.sqrt ((normSq q : ℚ) : ℝ) * Real.sqrt ((normSq v : ℚ) : ℝ))) *
        (((dotQ q v : ℚ) : ℝ) /
          (Real.sqrt ((normSq q : ℚ) : ℝ) * Real.sqrt ((normSq v : ℚ) : ℝ))) =
        ((dotQ q v : ℚ) : ℝ) * ((dotQ q v : ℚ) : ℝ) /
          (((normSq q : ℚ) : ℝ) * ((normSq v : ℚ) : ℝ)) := by
      rw [div_mul_div_comm, hsqsq]
    by_cases hd : dotQ q v < 0
    · rw [if_pos hd, if_pos (hcond.mpr hd), hgen]
      push_cast
      ring
    · rw [if_neg hd, if_neg (fun hcc => hd (hcond.mp hcc)), hgen]
      push_cast
      ring

/-- The executable score order coincides with the real cosine
similarity order. -/
lemma realCosSim_le_iff (q v w : List ℚ) :
    realCosSim q v ≤ realCosSim q w ↔ simScore q v ≤ simScore q w := by
  rw [← signedSq_strictMono.le_iff_le, ← simScore_cast, ← simScore_cast, Rat.cast_le]

lemma optList_map_some {α β : Type} (f : α → Option β) (g : α → β) :
    ∀ (l : List α), (∀ x ∈ l, f x = some (g x)) → optList (l.map f) = some (l.map g) := by
  intro l
  induction l with
  | nil => intro _; rfl
  | cons a t ih =>
    intro h
    have ha := h a (List.mem_cons_self a t)
    have ht := ih (fun x hx => h x (List.mem_cons_of_mem a hx))
    simp only [List.map_cons, optList, ha, ht]

lemma optList_mem {α : Type} :
    ∀ (l : List (Option α)) (out : List α), optList l = some out →
      ∀ a ∈ out, some a ∈ l := by
  intro l
  induction l with
  | nil =>
    intro out h a ha
    have : ([] : List α) = out := by injection h
    subst this
    exact absurd ha (List.not_mem_nil a)
  | cons o t ih =>
    intro out h a ha
    cases o with
    | none => exact absurd h (by simp [optList])
    | some b =>
      cases hot : optList t with
      | none =>
        simp only [optList, hot] at h
        exact Option.noConfusion h
      | some l' =>
        simp only [optList, hot] at h
        have : b :: l' = out := by injection h
        subst this
        rcases List.mem_cons.mp ha with he | hm
        · subst he; exact List.mem_cons_self _ _
        · exact List.mem_cons_of_mem _ (ih l' hot a hm)

lemma getD_map_score (qv : List ℚ) (emb : List (List ℚ)) (i : Nat)
    (h : i < emb.length) :
    (emb.map (fun e => simScore qv e)).getD i 0 = simScore qv (emb.getD i []) := by
  rw [List.getD_eq_get _ _ (by simpa using h), List.getD_eq_get _ _ h, List.get_map]

lemma argsortDesc_perm (sims : List ℚ) : List.Perm (argsortDesc sims) (List.range sims.length) :=
  List.perm_insertionSort _ _

lemma argsortDesc_sorted (sims : List ℚ) :
    List.Sorted (fun i j => sims.getD j 0 ≤ sims.getD i 0) (argsortDesc sims) := by
  haveI : IsTotal Nat (fun i j => sims.getD j 0 ≤ sims.getD i 0) :=
    ⟨fun _ _ => le_total _ _⟩
  haveI : IsTrans Nat (fun i j => sims.getD j 0 ≤ sims.getD i 0) :=
    ⟨fun _ _ _ hab hbc => le_trans hbc hab⟩
  exact List.sorted_insertionSort _ _

/-- C5: on a non-empty index (with the two parallel lists consistent),
`search(query, k)` of the exact-scan strategy returns
`min(k, count)` results: they are built from pairwise-distinct stored
entries, listed in non-increasing cosine-similarity order, and every
stored entry not returned has cosine similarity no greater than every
returned one — the top-k by descending similarity. -/
theorem C5_search_topk (mdl : Str → List ℚ) (st : SVS) (q : Str) (k : Nat)
    (hk : 1 ≤ k) (hne : st.embeddings ≠ [])
    (hlen : st.metadata.length = st.embeddings.length) :
    ∃ (res : List SResult) (idxs : List Nat),
      searchSVS mdl st q k = some res ∧
      res.length = min k st.embeddings.length ∧
      idxs.Nodup ∧
      (∀ i ∈ idxs, i < st.embeddings.length) ∧
      res = idxs.map (fun i =>
        mkSResult (st.metadata.getD i [])
          (simScore (mdl q) (st.embeddings.getD i []))) ∧
      List.Sorted (fun i j =>
        realCosSim (mdl q) (st.embeddings.getD j []) ≤
          realCosSim (mdl q) (st.embeddings.getD i [])) idxs ∧
      (∀ i ∈ idxs, ∀ j, j < st.embeddings.length → j ∉ idxs →
        realCosSim (mdl q) (st.embeddings.getD j []) ≤
          realCosSim (mdl q) (st.embeddings.getD i [])) := by
  classical
  set qv := mdl q with hqv
  set sims := st.embeddings.map (fun e => simScore qv e) with hsims
  have hsimslen : sims.length = st.embeddings.length := by
    rw [hsims, List.length_map]
  set full := argsortDesc sims with hfull
  have hperm : List.Perm full (List.range sims.length) := argsortDesc_perm sims
  have hfulllen : full.length = st.embeddings.length := by
    rw [hperm.length_eq, List.length_range, hsimslen]
  have hmemfull : ∀ i, i ∈ full ↔ i < st.embeddings.length := by
    intro i; rw [hperm.mem_iff, List.mem_range, hsimslen]
  have hnodup : full.Nodup := hperm.nodup_iff.mpr (List.nodup_range _)
  have hmemidxs : ∀ i ∈ full.take k, i < st.embeddings.length := fun i hi =>
    (hmemfull i).mp (List.mem_of_mem_take hi)
  have hres : searchSVS mdl st q k = some ((full.take k).map (fun i =>
      mkSResult (st.metadata.getD i []) (simScore qv (st.embeddings.getD i [])))) := by
    simp only [searchSVS, if_neg hne]
    apply optList_map_some
    intro i hi
    have hilt : i < st.metadata.length := by rw [hlen]; exact hmemidxs i hi
    have hg : st.metadata.get? i = some (st.metadata.getD i []) := by
      rw [List.getD_eq_get _ _ hilt, List.get?_eq_get hilt]
    rw [hg]
    simp only [Option.map_some']
    rw [getD_map_score qv st.embeddings i (hmemidxs i hi)]
  refine ⟨_, full.take k, hres, ?_, ?_, hmemidxs, rfl, ?_, ?_⟩
  · rw [List.length_map, List.length_take, hfulllen]
  · exact (List.take_sublist _ _).nodup hnodup
  · have hs2 : List.Sorted (fun i j => sims.getD j 0 ≤ sims.getD i 0) (full.take k) :=
      (argsortDesc_sorted sims).sublist (List.take_sublist _ _)
    refine hs2.imp_of_mem ?_
    intro a b ha hb hr
    have ha' := hmemidxs a ha
    have hb' := hmemidxs b hb
    rw [getD_map_score qv _ _ hb', getD_map_score qv _ _ ha'] at hr
    exact (realCosSim_le_iff qv _ _).mpr hr
  · intro i hi j hj hnot
    have hjfull : j ∈ full := (hmemfull j).mpr hj
    rw [← List.take_append_drop k full] at hjfull
    have hjdrop : j ∈ full.drop k := by
      rcases List.mem_append.mp hjfull with hl | hr
      · exact absurd hl hnot
      · exact hr
    have hsfull := argsortDesc_sorted sims
    rw [← hfull] at hsfull
    rw [show full = full.take k ++ full.drop k from (List.take_append_drop k full).symm]
      at hsfull
    have hle := (List.pairwise_append.mp hsfull).2.2 i hi j hjdrop
    rw [getD_map_score qv _ _ hj, getD_map_score qv _ _ (hmemidxs i hi)] at hle
    exact (realCosSim_le_iff qv _ _).mpr hle

/-- C6: `search` on an index holding zero entries returns the empty
list and signals no error, for every model, query and result count. -/
theorem C6_search_empty_index (mdl : Str → List ℚ) (st : SVS) (q : Str) (k : Nat)
    (h : st.embeddings = []) : searchSVS mdl st q k = some [] := by
  simp [searchSVS, h]

/-- Witness for C6 on the literally empty store. -/
theorem C6_search_empty_index_witness :
    SVS.empty.embeddings = [] ∧ searchSVS (fun _ => [1, 0]) SVS.empty ['q'] 5 = some [] :=
  ⟨rfl, C6_search_empty_index (fun _ => [1, 0]) SVS.empty ['q'] 5 rfl⟩

/-- A store already holding one 2-dimensional embedding. -/
def storeDim2 : SVS := ⟨[[1, 0]], [[("title", MVal.str ['A'])]]⟩

/-- An embedding model producing 3-dimensional vectors. -/
def modelDim3 : Str → List ℚ := fun _ => [1, 0, 0]

/-- C7 counterexample: the claim says an insert batch whose vector
dimensionality is inconsistent with the existing index fails and leaves
the prior entry count unchanged.  The code performs no dimensionality
check at all: inserting one text embedded to dimension 3 into a store
holding one dimension-2 vector succeeds and raises the entry count from
1 to 2. -/
theorem C7_counterexample :
    ((storeDim2.embeddings.map List.length = [2]) ∧ (modelDim3 ['x']).length = 3) ∧
    ¬ ((addTexts modelDim3 storeDim2 [['x']] []).embeddings.length =
        storeDim2.embeddings.length) := by
  constructor
  · exact ⟨rfl, rfl⟩
  · decide

/-- C7 amended: `add_texts` performs no dimensionality check and cannot
fail: every non-empty batch — even one whose vector dimensionality is
inconsistent with the existing index — is appended whole, so the entry
count grows by exactly the batch size (the batch is still applied
atomically, but never rejected). -/
theorem C7_insert_unchecked (mdl : Str → List ℚ) (st : SVS) (texts : List Str)
    (ms : List MDict) (h : texts ≠ []) :
    (addTexts mdl st texts ms).embeddings = st.embeddings ++ texts.map mdl ∧
    (addTexts mdl st texts ms).embeddings.length =
      st.embeddings.length + texts.length := by
  constructor
  · simp [addTexts, h]
  · simp [addTexts, h]

/-- Witness for C7's amended theorem at the dimension-mismatched
concrete input of the counterexample. -/
theorem C7_insert_unchecked_witness :
    ((([['x']] : List Str) ≠ [])) ∧
    ((addTexts modelDim3 storeDim2 [['x']] []).embeddings =
      storeDim2.embeddings ++ [['x']].map modelDim3 ∧
    (addTexts modelDim3 storeDim2 [['x']] []).embeddings.length =
      storeDim2.embeddings.length + ([['x']] : List Str).length) :=
  ⟨by decide, C7_insert_unchecked modelDim3 storeDim2 [['x']] [] (by decide)⟩

/-- A tiny concrete store for witnesses. -/
def svsDemo : SVS :=
  ⟨[[1, 0], [0, 1]], [[("title", MVal.str ['A'])], [("title", MVal.str ['B'])]]⟩

/-- A tiny concrete embedding model for witnesses. -/
def mdlDemo : Str → List ℚ := fun _ => [1, 0]

/-- Witness for C5 on a concrete 2-entry store with `k = 1`. -/
theorem C5_search_topk_witness :
    (1 ≤ 1 ∧ svsDemo.embeddings ≠ [] ∧
      svsDemo.metadata.length = svsDemo.embeddings.length) ∧
    (∃ (res : List SResult) (idxs : List Nat),
      searchSVS mdlDemo svsDemo ['q'] 1 = some res ∧
      res.length = min 1 svsDemo.embeddings.length ∧
      idxs.Nodup ∧
      (∀ i ∈ idxs, i < svsDemo.embeddings.length) ∧
      res = idxs.map (fun i =>
        mkSResult (svsDemo.metadata.getD i [])
          (simScore (mdlDemo ['q']) (svsDemo.embeddings.getD i []))) ∧
      List.Sorted (fun i j =>
        realCosSim (mdlDemo ['q']) (svsDemo.embeddings.getD j []) ≤
          realCosSim (mdlDemo ['q']) (svsDemo.embeddings.getD i [])) idxs ∧
      (∀ i ∈ idxs, ∀ j, j < svsDemo.embeddings.length → j ∉ idxs →
        realCosSim (mdlDemo ['q']) (svsDemo.embeddings.getD j []) ≤
          realCosSim (mdlDemo ['q']) (svsDemo.embeddings.getD i []))) :=
  ⟨⟨le_refl 1, by decide, by decide⟩,
    C5_search_topk mdlDemo svsDemo ['q'] 1 (le_refl 1) (by decide) (by decide)⟩

/-! ## C10: chunk texts are embedded but never stored -/

/-- A store populated only through a sequence of `add_texts` calls,
starting from the empty store. -/
def buildSVS (mdl : Str → List ℚ) (calls : List (List Str × List MDict)) : SVS :=
  calls.foldl (fun s c => addTexts mdl s c.1 c.2) SVS.empty

lemma addTexts_no_content (mdl : Str → List ℚ) (st : SVS) (texts : List Str)
    (ms : List MDict)
    (hst : ∀ md ∈ st.metadata, findVal "content" md = none)
    (hms : ∀ md ∈ ms, findVal "content" md = none) :
    ∀ md ∈ (addTexts mdl st texts ms).metadata, findVal "content" md = none := by
  intro md hmd
  by_cases ht : texts = []
  · rw [addTexts, if_pos ht] at hmd
    exact hst md hmd
  · simp only [addTexts, if_neg ht] at hmd
    rcases List.mem_append.mp hmd with h1 | h2
    · exact hst md h1
    · by_cases hm : ms = []
      · rw [if_pos hm] at h2
        obtain ⟨i, _, hi⟩ := List.mem_map.mp h2
        rw [← hi]
        rfl
      · rw [if_neg hm] at h2
        exact hms md h2

lemma buildSVS_no_content (mdl : Str → List ℚ) :
    ∀ (calls : List (List Str × List MDict)) (s : SVS),
      (∀ md ∈ s.metadata, findVal "content" md = none) →
      (∀ c ∈ calls, ∀ md ∈ c.2, findVal "content" md = none) →
      ∀ md ∈ (calls.foldl (fun s c => addTexts mdl s c.1 c.2) s).metadata,
        findVal "content" md = none := by
  intro calls
  induction calls with
  | nil => intro s hs _; exact hs
  | cons c cs ih =>
    intro s hs hcalls
    exact ih (addTexts mdl s c.1 c.2)
      (addTexts_no_content mdl s c.1 c.2 hs (hcalls c (List.mem_cons_self c cs)))
      (fun c' hc' => hcalls c' (List.mem_cons_of_mem c hc'))

lemma searchSVS_content_of_no_content (mdl : Str → List ℚ) (st : SVS) (q : Str)
    (k : Nat) (res : List SResult)
    (hrun : searchSVS mdl st q k = some res)
    (hmd : ∀ md ∈ st.metadata, findVal "content" md = none) :
    ∀ r ∈ res, r.content = MVal.str [] := by
  intro r hr
  by_cases hemb : st.embeddings = []
  · rw [searchSVS, if_pos hemb] at hrun
    have : ([] : List SResult) = res := by injection hrun
    subst this
    exact absurd hr (List.not_mem_nil r)
  · simp only [searchSVS, if_neg hemb] at hrun
    have hsome := optList_mem _ _ hrun r hr
    obtain ⟨i, _, hfi⟩ := List.mem_map.mp hsome
    obtain ⟨md, hgi, hmk⟩ := Option.map_eq_some'.mp hfi
    have hmem : md ∈ st.metadata := List.get?_mem hgi
    rw [← hmk]
    show (findVal "content" md).getD (MVal.str []) = MVal.str []
    rw [hmd md hmem]
    rfl

/-- C10: in a store populated only through `add_texts` calls whose
metadata dicts contain no `"content"` key, every `search` result has
the empty string as its content: the chunk texts handed to `add_texts`
are embedded but never stored, and `search` reads the returned content
from the stored metadata's `"content"` entry (absent, so defaulted to
`''`). -/
theorem C10_search_content_empty (mdl : Str → List ℚ)
    (calls : List (List Str × List MDict)) (q : Str) (k : Nat) (res : List SResult)
    (hcalls : ∀ c ∈ calls, ∀ md ∈ c.2, findVal "content" md = none)
    (hrun : searchSVS mdl (buildSVS mdl calls) q k = some res) :
    ∀ r ∈ res, r.content = MVal.str [] :=
  searchSVS_content_of_no_content mdl (buildSVS mdl calls) q k res hrun
    (buildSVS_no_content mdl calls SVS.empty
      (fun md h => absurd h (List.not_mem_nil md)) hcalls)

/-- The single `add_texts` call used in C10's witness. -/
def c10Calls : List (List Str × List MDict) :=
  [([['x']], [[("title", MVal.str ['A'])]])]

lemma c10_run :
    searchSVS mdlDemo (buildSVS mdlDemo c10Calls) ['q'] 1 =
      some [mkSResult [("title", MVal.str ['A'])] 1] := by
  norm_num [searchSVS, buildSVS, c10Calls, addTexts, mdlDemo, SVS.empty, argsortDesc,
    optList, mkSResult, findVal, simScore, dotQ, normSq, List.insertionSort,
    List.orderedInsert]

/-- Witness for C10: one `add_texts` call with a content-free metadata
dict; the single search result carries empty content. -/
theorem C10_search_content_empty_witness :
    ((∀ c ∈ c10Calls, ∀ md ∈ c.2, findVal "content" md = none) ∧
      searchSVS mdlDemo (buildSVS mdlDemo c10Calls) ['q'] 1 =
        some [mkSResult [("title", MVal.str ['A'])] 1]) ∧
    (∀ r ∈ [mkSResult [("title", MVal.str ['A'])] 1], r.content = MVal.str []) :=
  ⟨⟨by decide, c10_run⟩,
    C10_search_content_empty mdlDemo c10Calls ['q'] 1
      [mkSResult [("title", MVal.str ['A'])] 1] (by decide) c10_run⟩

/-! ## RAGChatbot.setup_vector_store (`rag_chatbot.py`) over the
managed (chroma) store of `vector_store.py` -/

/-- A loaded transcript (title and content), as produced by
`TranscriptLoader.load_transcript`. -/
structure Transcript where
  title : Str
  content : Str
deriving DecidableEq

/-- Python `str.split()`: split on whitespace runs, dropping empties. -/
def pySplitWs (l : Str) : List Str :=
  let p := l.foldr
    (fun c acc =>
      if pyIsSpace c then
        if acc.1 = [] then ([], acc.2) else ([], acc.1 :: acc.2)
      else (c :: acc.1, acc.2))
    ([], [])
  if p.1 = [] then p.2 else p.1 :: p.2

/-- One entry of the chroma collection: id `f"{title}_{i}"` (modelled
as the pair), the chunk document, and its metadata. -/
structure CEntry where
  id : Str × Nat
  document : Str
  meta : MDict
deriving DecidableEq

/-- The managed (chroma) collection state. -/
structure CStore where
  entries : List CEntry
deriving DecidableEq

/-- The per-chunk metadata built by `VectorStore.add_transcripts`. -/
def chunkMeta (title : Str) (i total : Nat) (chunk : Str) : MDict :=
  [("title", MVal.str title), ("chunk_index", MVal.int i),
   ("total_chunks", MVal.int total),
   ("word_count", MVal.int (pySplitWs chunk).length)]

/-- The entries contributed by one transcript: its content is chunked
with the default `chunk_size = 1000`, `overlap = 200`; `none` when the
chunker does not terminate (or raises) on this content. -/
def transcriptEntries (fuel : Nat) (t : Transcript) : Option (List CEntry) :=
  match chunkTextF fuel t.content 1000 200 with
  | ChunkOut.out chunks =>
      some ((List.range chunks.length).map (fun i =>
        { id := (t.title, i), document := chunks.getD i [],
          meta := chunkMeta t.title i chunks.length (chunks.getD i []) }))
  | _ => none

def buildAllEntries (fuel : Nat) : List Transcript → Option (List CEntry)
  | [] => some []
  | t :: ts =>
    match transcriptEntries fuel t, buildAllEntries fuel ts with
    | some a, some b => some (a ++ b)
    | _, _ => none

/-- `VectorStore.add_transcripts`: chunk every transcript, then add all
chunks to the collection in batches of 100.  Returns the new store and
the number of `collection.add` calls (insert operations) performed. -/
def addTranscripts (fuel : Nat) (st : CStore) (ts : List Transcript) :
    Option (CStore × Nat) :=
  match buildAllEntries fuel ts with
  | none => none
  | some all => some (⟨st.entries ++ all⟩, (all.length + 99) / 100)

/-- `RAGChatbot.setup_vector_store(force_rebuild)`: clear first when
forced; then, if the collection already holds chunks and the rebuild is
not forced, return without inserting; otherwise add the loaded
transcripts (zero inserts when none were found).  The pair's second
component counts insert operations. -/
def setupVectorStore (fuel : Nat) (force : Bool) (docs : List Transcript)
    (st : CStore) : Option (CStore × Nat) :=
  let st1 := if force then CStore.mk [] else st
  if 0 < st1.entries.length ∧ force = false then some (st1, 0)
  else if docs = [] then some (st1, 0)
  else addTranscripts fuel st1 docs

/-- C8: when the index already holds at least one entry and
`forceRebuild` is false, `setup_vector_store` is a no-op — it performs
zero insert operations and leaves the store unchanged — and therefore a
second identical call also performs zero inserts. -/
theorem C8_build_once_noop (fuel : Nat) (docs : List Transcript) (st : CStore)
    (h : 0 < st.entries.length) :
    setupVectorStore fuel false docs st = some (st, 0) ∧
    ∀ st' n, setupVectorStore fuel false docs st = some (st', n) →
      setupVectorStore fuel false docs st' = some (st', 0) := by
  have h1 : setupVectorStore fuel false docs st = some (st, 0) := by
    simp [setupVectorStore, h]
  refine ⟨h1, fun st' n h2 => ?_⟩
  rw [h1] at h2
  have h3 : (st, 0) = (st', n) := by injection h2
  have h4 : st = st' := congrArg Prod.fst h3
  subst h4
  exact h1

/-- A one-entry collection for C8's witness. -/
def cstoreDemo : CStore := ⟨[⟨(['A'], 0), ['x'], []⟩]⟩

/-- Witness for C8 on a concrete non-empty store. -/
theorem C8_build_once_noop_witness :
    (0 < cstoreDemo.entries.length) ∧
    (setupVectorStore 0 false [] cstoreDemo = some (cstoreDemo, 0) ∧
      ∀ st' n, setupVectorStore 0 false [] cstoreDemo = some (st', n) →
        setupVectorStore 0 false [] st' = some (st', 0)) :=
  ⟨by decide, C8_build_once_noop 0 [] cstoreDemo (by decide)⟩

/-! ## TranscriptLoader.get_transcript_summary (`transcript_loader.py`) -/

/-- A loaded document with the statistics computed at load time. -/
structure TDoc where
  title : Str
  wordCount : Nat
  fileSize : Nat
deriving DecidableEq

/-- The corpus statistics of `get_transcript_summary`; the average is
`total_words / len(transcripts)` computed in exact arithmetic. -/
structure CorpusSummary where
  totalTranscripts : Nat
  totalWords : Nat
  totalSize : Nat
  averageWords : ℚ
  titles : List Str
deriving DecidableEq

/-- The empty-corpus failure of the loader (the source signals it by
returning the error dictionary `{"error": "No transcripts found"}`
instead of statistics). -/
inductive LoaderErr where
  | emptyCorpus
deriving DecidableEq

/-- `TranscriptLoader.get_transcript_summary` over the loaded
documents: the empty-corpus guard precedes the division
`total_words / len(transcripts)`, so the average is only ever computed
with a positive divisor. -/
def getTranscriptSummary (docs : List TDoc) : Except LoaderErr CorpusSummary :=
  if docs = [] then Except.error LoaderErr.emptyCorpus
  else
    Except.ok
      { totalTranscripts := docs.length,
        totalWords := (docs.map (fun d => d.wordCount)).sum,
        totalSize := (docs.map (fun d => d.fileSize)).sum,
        averageWords := ((docs.map (fun d => d.wordCount)).sum : ℚ) / (docs.length : ℚ),
        titles := docs.map (fun d => d.title) }

/-- C9: the corpus summary over zero loaded documents fails with the
empty-corpus error rather than computing a division-by-zero average or
returning normal statistics. -/
theorem C9_summary_empty_corpus (docs : List TDoc) (h : docs = []) :
    getTranscriptSummary docs = Except.error LoaderErr.emptyCorpus := by
  rw [getTranscriptSummary, if_pos h]

/-- Witness for C9 at the literally empty document list. -/
theorem C9_summary_empty_corpus_witness :
    (([] : List TDoc) = []) ∧
    getTranscriptSummary [] = Except.error LoaderErr.emptyCorpus :=
  ⟨rfl, C9_summary_empty_corpus [] rfl⟩

end RagSpec
